import Mathlib

/-!
Verification of the opacity engine of `bevy_mod_opacity` (`src/lib.rs`).

Floating point (`f32`) is modelled by the rationals `ℚ`: the algorithms use
only field arithmetic and order comparisons, which `ℚ` reproduces exactly.
Entities are modelled by `Nat`.
-/

/-- The `Opacity` component of `src/lib.rs`: current value, target value,
signed interpolation speed, and the despawn-on-fade-out flag. -/
structure Opacity where
  current : ℚ
  target : ℚ
  speed : ℚ
  despawns : Bool
deriving DecidableEq

/-- `Opacity::new(opacity)`: a stable value with `current = target`, zero
speed and no pending despawn. -/
def Opacity.new (opacity : ℚ) : Opacity :=
  { current := opacity
    target := opacity
    speed := 0
    despawns := false }

/-- `Opacity::INVISIBLE`. -/
def Opacity.INVISIBLE : Opacity := Opacity.new 0

/-- `Opacity::OPAQUE`. -/
def Opacity.OPAQUE : Opacity := Opacity.new 1

/-- `Opacity::get`. -/
def Opacity.get (o : Opacity) : ℚ := o.current

/-- `Opacity::get_target`. -/
def Opacity.get_target (o : Opacity) : ℚ := o.target

/-- `Opacity::set(opacity)`: `*self = Self::new(opacity)`. -/
def Opacity.set (_o : Opacity) (opacity : ℚ) : Opacity := Opacity.new opacity

/-- `Opacity::is_opaque`. -/
def Opacity.is_opaque (o : Opacity) : Prop := 1 ≤ o.current

/-- `Opacity::is_visible`. -/
def Opacity.is_visible (o : Opacity) : Prop := 0 < o.current

/-- `Opacity::is_invisible`. -/
def Opacity.is_invisible (o : Opacity) : Prop := o.current ≤ 0

/-- `Opacity::fade_in(time)`: target `1.0`, clear `despawns`, speed `1/time`. -/
def Opacity.fade_in (o : Opacity) (time : ℚ) : Opacity :=
  { o with
    target := 1
    despawns := false
    speed := 1 / time }

/-- `Opacity::fade_out(time)`: target `0.0`, raise `despawns`, speed `-1/time`. -/
def Opacity.fade_out (o : Opacity) (time : ℚ) : Opacity :=
  { o with
    target := 0
    despawns := true
    speed := -1 / time }

/-- `Opacity::interpolate_to(opacity, time)`. -/
def Opacity.interpolate_to (o : Opacity) (opacity time : ℚ) : Opacity :=
  { o with
    target := opacity
    despawns := false
    speed := (opacity - o.current) / time }

/-- Rust `f32::signum` restricted to exact rationals: `-1` for negative
inputs and `1` for positive inputs and for `+0.0`. -/
def rustSignum (x : ℚ) : ℚ := if x < 0 then -1 else 1

/-- `Opacity::interpolate_by_speed(opacity, time_zero_to_one)`. -/
def Opacity.interpolate_by_speed (o : Opacity) (opacity time_zero_to_one : ℚ) : Opacity :=
  { o with
    target := opacity
    despawns := false
    speed := rustSignum (opacity - o.current) / time_zero_to_one }

/-- The body of the `match` inside the `interpolate` system for a non-zero
speed: advance `current` by `speed * dt` and clamp to `target` (zeroing the
speed) on overshoot in the direction of travel. -/
def stepOpacity (o : Opacity) (dt : ℚ) : Opacity :=
  if 0 < o.speed then
    if o.target < o.current + o.speed * dt then
      { o with
        current := o.target
        speed := 0 }
    else
      { o with current := o.current + o.speed * dt }
  else
    if o.current + o.speed * dt < o.target then
      { o with
        current := o.target
        speed := 0 }
    else
      { o with current := o.current + o.speed * dt }

/-- One iteration of the `interpolate` system for a single entity, given the
elapsed time `dt`.  Returns the updated value and whether a despawn request
(`commands.entity(entity).try_despawn()`) was emitted.  A zero speed hits the
`continue` arm of the `match`, which also skips the despawn check. -/
def interpolateStep (o : Opacity) (dt : ℚ) : Opacity × Bool :=
  if o.speed = 0 then (o, false)
  else
    let o' := stepOpacity o dt
    (o', o'.despawns && decide (o'.current ≤ 0))

/-- Iterated `interpolate` ticks for one entity over a list of frame times,
counting the despawn requests emitted along the way. -/
def interpolateRun (o : Opacity) : List ℚ → Opacity × Nat
  | [] => (o, 0)
  | dt :: rest =>
    let s := interpolateStep o dt
    let r := interpolateRun s.1 rest
    (r.1, (if s.2 then 1 else 0) + r.2)

/-- The `Serialize` impl for `Opacity`: only the target value is written. -/
def serializeOpacity (o : Opacity) : ℚ := o.target

/-- The `Deserialize` impl for `Opacity`: `Opacity::new` of the read value. -/
def deserializeOpacity (v : ℚ) : Opacity := Opacity.new v

/-- Characterization used for the amended fade-out claim: `hitsExactly dts r`
holds when walking down the step list some step lands exactly on the
remaining amount `r`. -/
def hitsExactly : List ℚ → ℚ → Bool
  | [], _ => false
  | dt :: rest, r => if dt = r then true else if dt < r then hitsExactly rest (r - dt) else false

theorem hitsExactly_cons (dt : ℚ) (rest : List ℚ) (r : ℚ) :
    hitsExactly (dt :: rest) r =
      if dt = r then true else if dt < r then hitsExactly rest (r - dt) else false := rfl

theorem interpolateStep_steady (o : Opacity) (dt : ℚ) (h : o.speed = 0) :
    interpolateStep o dt = (o, false) := by
  simp [interpolateStep, h]

theorem interpolateRun_steady (o : Opacity) (dts : List ℚ) (h : o.speed = 0) :
    interpolateRun o dts = (o, 0) := by
  induction dts with
  | nil => rfl
  | cons dt rest ih =>
    simp [interpolateRun, interpolateStep_steady o dt h, ih]

/-- **C10.** An interpolation step only updates `current` and `speed`; the
`target` and `despawns` fields are returned exactly as they were, so a pending
fade-out's despawn intent survives partial steps. -/
theorem step_preserves_target_despawns (o : Opacity) (dt : ℚ) :
    (interpolateStep o dt).1.target = o.target ∧
    (interpolateStep o dt).1.despawns = o.despawns := by
  unfold interpolateStep stepOpacity
  split
  · exact ⟨rfl, rfl⟩
  · split <;> split <;> exact ⟨rfl, rfl⟩

/-- **C6.** `set(v)` cancels any in-flight interpolation or fade-out: every
subsequent sequence of interpolation steps leaves `current` at `v` and emits
no despawn request at all. -/
theorem set_cancels_interpolation (o : Opacity) (v : ℚ) (dts : List ℚ) :
    (interpolateRun (o.set v) dts).1.current = v ∧
    (interpolateRun (o.set v) dts).2 = 0 := by
  have h : interpolateRun (o.set v) dts = (o.set v, 0) :=
    interpolateRun_steady _ _ rfl
  rw [h]
  exact ⟨rfl, rfl⟩

/-- **C9.** Serialization writes the target value alone, and deserializing a
float `v` rebuilds the stable value `Opacity::new v` with
`current = target = v`, zero speed and no pending despawn; the roundtrip
therefore yields `Opacity::new` of the original target. -/
theorem serde_roundtrip_spec (o : Opacity) (v : ℚ) :
    serializeOpacity o = o.target ∧
    deserializeOpacity v = Opacity.new v ∧
    (deserializeOpacity v).current = v ∧
    (deserializeOpacity v).target = v ∧
    (deserializeOpacity v).speed = 0 ∧
    (deserializeOpacity v).despawns = false ∧
    deserializeOpacity (serializeOpacity o) = Opacity.new o.target :=
  ⟨rfl, rfl, rfl, rfl, rfl, rfl, rfl⟩

/-- **C3 counterexample.** `fade_in` on an already fully opaque value leaves
`current = target = 1` but sets `speed = 1/2 ≠ 0`, so the steady-state clause
"speed is 0.0 when current already equals the new target" fails for
`fade_in`. -/
theorem mutator_steady_cex :
    ((Opacity.new 1).fade_in 2).current = ((Opacity.new 1).fade_in 2).target ∧
    ((Opacity.new 1).fade_in 2).speed ≠ 0 := by
  constructor
  · simp [Opacity.new, Opacity.fade_in]
  · show (1 : ℚ) / 2 ≠ 0
    norm_num

/-- **C3 (amended).** For a positive duration: `set` always reaches the steady
state; `interpolate_to` sets a zero speed exactly when `current` already
equals the new target; `fade_in`, `fade_out` and `interpolate_by_speed`
always set a non-zero speed (`±1/duration`), even when `current` already
equals the new target; and every mutator other than `fade_out` clears
`despawns`, while `fade_out` raises it. -/
theorem mutator_speed_despawn_spec (o : Opacity) (v t : ℚ) (ht : 0 < t) :
    ((o.set v).speed = 0 ∧ (o.set v).current = (o.set v).target ∧
      (o.set v).despawns = false) ∧
    (((o.interpolate_to v t).speed = 0 ↔ o.current = v) ∧
      (o.interpolate_to v t).target = v ∧ (o.interpolate_to v t).despawns = false) ∧
    ((o.fade_in t).speed ≠ 0 ∧ (o.fade_in t).target = 1 ∧
      (o.fade_in t).despawns = false) ∧
    ((o.fade_out t).speed ≠ 0 ∧ (o.fade_out t).target = 0 ∧
      (o.fade_out t).despawns = true) ∧
    ((o.interpolate_by_speed v t).speed ≠ 0 ∧
      (o.interpolate_by_speed v t).target = v ∧
      (o.interpolate_by_speed v t).despawns = false) := by
  have htne : t ≠ 0 := ne_of_gt ht
  refine ⟨⟨rfl, rfl, rfl⟩, ⟨?_, rfl, rfl⟩, ⟨?_, rfl, rfl⟩, ⟨?_, rfl, rfl⟩, ⟨?_, rfl, rfl⟩⟩
  · show (v - o.current) / t = 0 ↔ o.current = v
    rw [div_eq_zero_iff]
    constructor
    · intro h
      have h' := h.resolve_right htne
      linarith
    · intro h
      left
      rw [h, sub_self]
  · show (1 : ℚ) / t ≠ 0
    exact div_ne_zero one_ne_zero htne
  · show (-1 : ℚ) / t ≠ 0
    exact div_ne_zero (by norm_num) htne
  · show rustSignum (v - o.current) / t ≠ 0
    refine div_ne_zero ?_ htne
    unfold rustSignum
    split <;> norm_num

/-- **C3 witness.** The amended mutator specification instantiated at a
concrete value and duration. -/
theorem mutator_speed_despawn_spec_witness :
    ((0 : ℚ) < 2) ∧
    ((((Opacity.new (1/2)).set (1/4)).speed = 0 ∧
        ((Opacity.new (1/2)).set (1/4)).current = ((Opacity.new (1/2)).set (1/4)).target ∧
        ((Opacity.new (1/2)).set (1/4)).despawns = false) ∧
      ((((Opacity.new (1/2)).interpolate_to (1/4) 2).speed = 0 ↔
          (Opacity.new (1/2)).current = 1/4) ∧
        ((Opacity.new (1/2)).interpolate_to (1/4) 2).target = 1/4 ∧
        ((Opacity.new (1/2)).interpolate_to (1/4) 2).despawns = false) ∧
      (((Opacity.new (1/2)).fade_in 2).speed ≠ 0 ∧
        ((Opacity.new (1/2)).fade_in 2).target = 1 ∧
        ((Opacity.new (1/2)).fade_in 2).despawns = false) ∧
      (((Opacity.new (1/2)).fade_out 2).speed ≠ 0 ∧
        ((Opacity.new (1/2)).fade_out 2).target = 0 ∧
        ((Opacity.new (1/2)).fade_out 2).despawns = true) ∧
      (((Opacity.new (1/2)).interpolate_by_speed (1/4) 2).speed ≠ 0 ∧
        ((Opacity.new (1/2)).interpolate_by_speed (1/4) 2).target = 1/4 ∧
        ((Opacity.new (1/2)).interpolate_by_speed (1/4) 2).despawns = false)) :=
  ⟨by norm_num, mutator_speed_despawn_spec (Opacity.new (1/2)) (1/4) 2 (by norm_num)⟩

theorem interpolateStep_down (o : Opacity) (dt : ℚ) (hneg : o.speed < 0) :
    interpolateStep o dt =
      (if o.current + o.speed * dt < o.target then
        ({ o with
            current := o.target
            speed := 0 },
          o.despawns && decide (o.target ≤ 0))
      else
        ({ o with current := o.current + o.speed * dt },
          o.despawns && decide (o.current + o.speed * dt ≤ 0))) := by
  have h1 : o.speed ≠ 0 := ne_of_lt hneg
  have h2 : ¬ 0 < o.speed := not_lt.mpr (le_of_lt hneg)
  unfold interpolateStep stepOpacity
  rw [if_neg h1, if_neg h2]
  split <;> rfl

theorem fadeRun_after_exact (d : ℚ) (hd : 0 < d) (dt : ℚ) (hdt : 0 < dt) (rest : List ℚ) :
    interpolateRun (Opacity.mk 0 0 (-(1 / d)) true) (dt :: rest) =
      (Opacity.mk 0 0 0 true, 1) := by
  have hinv : (0 : ℚ) < 1 / d := by positivity
  have hneg : (Opacity.mk 0 0 (-(1 / d)) true).speed < 0 := by
    show -(1 / d) < (0 : ℚ)
    linarith
  have hcond : (Opacity.mk 0 0 (-(1 / d)) true).current +
      (Opacity.mk 0 0 (-(1 / d)) true).speed * dt < (Opacity.mk 0 0 (-(1 / d)) true).target := by
    show (0 : ℚ) + -(1 / d) * dt < 0
    nlinarith
  have hstep : interpolateStep (Opacity.mk 0 0 (-(1 / d)) true) dt =
      (Opacity.mk 0 0 0 true, true) := by
    rw [interpolateStep_down _ _ hneg, if_pos hcond]
    have : decide ((Opacity.mk 0 0 (-(1 / d)) true).target ≤ 0) = true :=
      decide_eq_true (le_refl (0 : ℚ))
    rw [this]
    rfl
  show interpolateRun (Opacity.mk 0 0 (-(1 / d)) true) (dt :: rest) = (Opacity.mk 0 0 0 true, 1)
  rw [interpolateRun, hstep]
  rw [interpolateRun_steady (Opacity.mk 0 0 0 true) rest rfl]
  simp

theorem fadeRun_crossing (d : ℚ) (hd : 0 < d) :
    ∀ (dts : List ℚ) (r : ℚ), 0 < r → (∀ dt ∈ dts, 0 < dt) → r < dts.sum →
      interpolateRun (Opacity.mk (r / d) 0 (-(1 / d)) true) dts =
        (Opacity.mk 0 0 0 true, if hitsExactly dts r then 2 else 1) := by
  have hinv : (0 : ℚ) < 1 / d := by positivity
  intro dts
  induction dts with
  | nil =>
    intro r hr _ hsum
    simp only [List.sum_nil] at hsum
    linarith
  | cons dt rest ih =>
    intro r hr hpos hsum
    have hdt : 0 < dt := hpos dt (by simp)
    have hneg : (Opacity.mk (r / d) 0 (-(1 / d)) true).speed < 0 := by
      show -(1 / d) < (0 : ℚ)
      linarith
    have hcur : (Opacity.mk (r / d) 0 (-(1 / d)) true).current +
        (Opacity.mk (r / d) 0 (-(1 / d)) true).speed * dt = (r - dt) / d := by
      show r / d + -(1 / d) * dt = (r - dt) / d
      field_simp
      ring
    have hsum' : r < dt + rest.sum := by
      simpa using hsum
    rcases lt_trichotomy dt r with hlt | heq | hgt
    · -- the step stays strictly above the target: no clamp, no request
      have hcpos : (0 : ℚ) < (r - dt) / d := div_pos (by linarith) hd
      have hncond : ¬ ((Opacity.mk (r / d) 0 (-(1 / d)) true).current +
          (Opacity.mk (r / d) 0 (-(1 / d)) true).speed * dt <
            (Opacity.mk (r / d) 0 (-(1 / d)) true).target) := by
        rw [hcur]
        show ¬ ((r - dt) / d < 0)
        linarith
      have hstep : interpolateStep (Opacity.mk (r / d) 0 (-(1 / d)) true) dt =
          (Opacity.mk ((r - dt) / d) 0 (-(1 / d)) true, false) := by
        rw [interpolateStep_down _ _ hneg, if_neg hncond]
        have hdec : decide ((Opacity.mk (r / d) 0 (-(1 / d)) true).current +
            (Opacity.mk (r / d) 0 (-(1 / d)) true).speed * dt ≤ 0) = false := by
          apply decide_eq_false
          rw [hcur]
          show ¬ ((r - dt) / d ≤ 0)
          linarith
        rw [hdec]
        rw [Prod.mk.injEq]
        constructor
        · show Opacity.mk (r / d + -(1 / d) * dt) 0 (-(1 / d)) true =
            Opacity.mk ((r - dt) / d) 0 (-(1 / d)) true
          rw [hcur]
        · simp
      have hrec := ih (r - dt) (by linarith) (fun x hx => hpos x (by simp [hx])) (by linarith)
      have hhits : hitsExactly (dt :: rest) r = hitsExactly rest (r - dt) := by
        rw [hitsExactly_cons, if_neg (ne_of_lt hlt), if_pos hlt]
      rw [interpolateRun, hstep, hrec, hhits]
      simp
    · -- exact landing on the target: request now, speed left non-zero
      subst heq
      have hczero : (Opacity.mk (dt / d) 0 (-(1 / d)) true).current +
          (Opacity.mk (dt / d) 0 (-(1 / d)) true).speed * dt = 0 := by
        rw [hcur]
        simp
      have hncond : ¬ ((Opacity.mk (dt / d) 0 (-(1 / d)) true).current +
          (Opacity.mk (dt / d) 0 (-(1 / d)) true).speed * dt <
            (Opacity.mk (dt / d) 0 (-(1 / d)) true).target) := by
        rw [hczero]
        show ¬ ((0 : ℚ) < 0)
        exact lt_irrefl 0
      have hstep : interpolateStep (Opacity.mk (dt / d) 0 (-(1 / d)) true) dt =
          (Opacity.mk 0 0 (-(1 / d)) true, true) := by
        rw [interpolateStep_down _ _ hneg, if_neg hncond]
        have hdec : decide ((Opacity.mk (dt / d) 0 (-(1 / d)) true).current +
            (Opacity.mk (dt / d) 0 (-(1 / d)) true).speed * dt ≤ 0) = true := by
          apply decide_eq_true
          rw [hczero]
        rw [hdec]
        rw [Prod.mk.injEq]
        constructor
        · show Opacity.mk (dt / d + -(1 / d) * dt) 0 (-(1 / d)) true =
            Opacity.mk 0 0 (-(1 / d)) true
          rw [hcur] at hczero ⊢
          rw [hczero]
        · simp
      have hrest : 0 < rest.sum := by linarith
      have hne : rest ≠ [] := by
        intro h
        rw [h] at hrest
        simp at hrest
      obtain ⟨dt2, rest2, hrw⟩ : ∃ a l, rest = a :: l := by
        cases rest with
        | nil => exact absurd rfl hne
        | cons a l => exact ⟨a, l, rfl⟩
      subst hrw
      have hdt2 : 0 < dt2 := hpos dt2 (by simp)
      have hhits : hitsExactly (dt :: dt2 :: rest2) dt = true := by
        rw [hitsExactly_cons, if_pos rfl]
      rw [interpolateRun, hstep, fadeRun_after_exact d hd dt2 hdt2 rest2, hhits]
      simp
    · -- strict overshoot below zero: clamp, zero the speed, single request
      have hcneg : (r - dt) / d < 0 := by
        apply div_neg_of_neg_of_pos _ hd
        linarith
      have hcond : (Opacity.mk (r / d) 0 (-(1 / d)) true).current +
          (Opacity.mk (r / d) 0 (-(1 / d)) true).speed * dt <
            (Opacity.mk (r / d) 0 (-(1 / d)) true).target := by
        rw [hcur]
        exact hcneg
      have hstep : interpolateStep (Opacity.mk (r / d) 0 (-(1 / d)) true) dt =
          (Opacity.mk 0 0 0 true, true) := by
        rw [interpolateStep_down _ _ hneg, if_pos hcond]
        have hdec : decide ((Opacity.mk (r / d) 0 (-(1 / d)) true).target ≤ 0) = true :=
          decide_eq_true (le_refl (0 : ℚ))
        rw [hdec]
        rfl
      have hhits : hitsExactly (dt :: rest) r = false := by
        rw [hitsExactly_cons, if_neg (ne_of_gt hgt), if_neg (not_lt.mpr (le_of_lt hgt))]
      rw [interpolateRun, hstep, interpolateRun_steady (Opacity.mk 0 0 0 true) rest rfl, hhits]
      simp

theorem fadeOut_two_single_step :
    interpolateRun ((Opacity.new 1).fade_out 2) [2] = (Opacity.mk 0 0 (-1 / 2) true, 1) := by
  have h1 : (Opacity.new 1).fade_out 2 = Opacity.mk 1 0 (-1 / 2) true := rfl
  have hneg : (Opacity.mk 1 0 (-1 / 2) true).speed < 0 := by
    show (-1 / 2 : ℚ) < 0
    norm_num
  have hc0 : (Opacity.mk 1 0 (-1 / 2) true).current +
      (Opacity.mk 1 0 (-1 / 2) true).speed * 2 = 0 := by
    show (1 : ℚ) + -1 / 2 * 2 = 0
    norm_num
  have hstep : interpolateStep (Opacity.mk 1 0 (-1 / 2) true) 2 =
      (Opacity.mk 0 0 (-1 / 2) true, true) := by
    rw [interpolateStep_down _ _ hneg]
    have hncond : ¬ ((Opacity.mk 1 0 (-1 / 2) true).current +
        (Opacity.mk 1 0 (-1 / 2) true).speed * 2 < (Opacity.mk 1 0 (-1 / 2) true).target) := by
      rw [hc0]
      show ¬ ((0 : ℚ) < 0)
      exact lt_irrefl 0
    rw [if_neg hncond]
    rw [Prod.mk.injEq]
    constructor
    · show Opacity.mk ((1 : ℚ) + -1 / 2 * 2) 0 (-1 / 2) true = Opacity.mk 0 0 (-1 / 2) true
      rw [show (1 : ℚ) + -1 / 2 * 2 = 0 by norm_num]
    · have hdec : decide ((Opacity.mk 1 0 (-1 / 2) true).current +
          (Opacity.mk 1 0 (-1 / 2) true).speed * 2 ≤ 0) = true := by
        apply decide_eq_true
        rw [hc0]
      rw [hdec]
      rfl
  rw [h1, interpolateRun, hstep]
  simp [interpolateRun]

/-- **C4 counterexample.** `fade_out(2.0)` from an opaque value, stepped once
with `dt = 2.0` (accumulated elapsed time equal to the duration), reaches
`current = 0.0` but leaves `speed = -1/2 ≠ 0`: the claim's "run to completion
(accumulated elapsed time at least duration) leaves speed == 0" is false at
this input. -/
theorem fade_out_exact_landing_cex :
    (interpolateRun ((Opacity.new 1).fade_out 2) [2]).1.current = 0 ∧
    (interpolateRun ((Opacity.new 1).fade_out 2) [2]).1.speed ≠ 0 ∧
    (interpolateRun ((Opacity.new 1).fade_out 2) [2]).2 = 1 := by
  rw [fadeOut_two_single_step]
  refine ⟨rfl, ?_, rfl⟩
  show (-1 / 2 : ℚ) ≠ 0
  norm_num

/-- **C4 (amended).** After `fade_out(d)` with `d > 0` from an opaque value,
any run of positive steps whose total strictly exceeds `d` ends with
`current = 0`, `speed = 0` and the despawn flag still raised, and emits
exactly one removal request — at the step in which `current` first reaches
`≤ 0` — unless some step lands exactly on the remaining fade time, in which
case that step and the following one each emit a request (two in total) and
the speed is only zeroed at the second.  The concrete scenario `fade_out(2.0)`
stepped once with `dt = 2.0` yields exactly one removal request and
`current == 0.0` (with `speed` left at `-1/2`). -/
theorem fade_out_completion_spec :
    (∀ (d : ℚ) (dts : List ℚ), 0 < d → (∀ dt ∈ dts, 0 < dt) → d < dts.sum →
      interpolateRun ((Opacity.new 1).fade_out d) dts =
        (Opacity.mk 0 0 0 true, if hitsExactly dts d then 2 else 1)) ∧
    (interpolateRun ((Opacity.new 1).fade_out 2) [2]).1.current = 0 ∧
    (interpolateRun ((Opacity.new 1).fade_out 2) [2]).2 = 1 := by
  refine ⟨?_, ?_, ?_⟩
  · intro d dts hd hpos hsum
    have h1 : (Opacity.new 1).fade_out d = Opacity.mk (d / d) 0 (-(1 / d)) true := by
      show Opacity.mk 1 0 (-1 / d) true = Opacity.mk (d / d) 0 (-(1 / d)) true
      rw [div_self (ne_of_gt hd), neg_div]
    rw [h1]
    exact fadeRun_crossing d hd dts d hd hpos hsum
  · rw [fadeOut_two_single_step]
  · rw [fadeOut_two_single_step]

/-- **C4 witness.** `fade_out(2.0)` stepped with `dt = 1` three times: total
elapsed `3 > 2`, the second step lands exactly on the fade time, and the run
emits two removal requests, ending at `current = 0`, `speed = 0`. -/
theorem fade_out_completion_spec_witness :
    ((0 : ℚ) < 2 ∧ (∀ dt ∈ ([1, 1, 1] : List ℚ), 0 < dt) ∧
      (2 : ℚ) < ([1, 1, 1] : List ℚ).sum) ∧
    interpolateRun ((Opacity.new 1).fade_out 2) [1, 1, 1] =
      (Opacity.mk 0 0 0 true, if hitsExactly [1, 1, 1] 2 then 2 else 1) ∧
    hitsExactly ([1, 1, 1] : List ℚ) 2 = true := by
  have hpos : ∀ dt ∈ ([1, 1, 1] : List ℚ), 0 < dt := by
    intro dt hdt
    simp at hdt
    rw [hdt]
    norm_num
  have hsum : (2 : ℚ) < ([1, 1, 1] : List ℚ).sum := by
    simp
    norm_num
  have hhits : hitsExactly ([1, 1, 1] : List ℚ) 2 = true := by
    rw [hitsExactly_cons, if_neg (by norm_num), if_pos (by norm_num),
      show (2 : ℚ) - 1 = 1 by norm_num, hitsExactly_cons, if_pos rfl]
  exact ⟨⟨by norm_num, hpos, hsum⟩,
    fade_out_completion_spec.1 2 [1, 1, 1] (by norm_num) hpos hsum, hhits⟩

/-- The `OpacityMap` resource (`EntityHashMap<f32>`) as a partial map from
entities to effective opacities. -/
abbrev OMap := Nat → Option ℚ

def OMap.empty : OMap := fun _ => none

/-- `map.0.clear()`. -/
def OMap.clear (_m : OMap) : OMap := fun _ => none

/-- `map.0.insert(entity, value)`: overwrites any existing entry. -/
def OMap.insert (m : OMap) (e : Nat) (v : ℚ) : OMap :=
  fun n => if n = e then some v else m n

theorem OMap.insert_self (m : OMap) (e : Nat) (v : ℚ) : OMap.insert m e v e = some v := by
  simp [OMap.insert]

theorem OMap.insert_ne (m : OMap) (e : Nat) (v : ℚ) (n : Nat) (h : n ≠ e) :
    OMap.insert m e v n = m n := by
  simp [OMap.insert, h]

/-- The inputs of `calculate_opacity`: the rows of `Query<(Entity, &Opacity)>`
in iteration order, and the `Children` relation.  `children.get(e)` returning
`Err` is modelled by the empty list, which the loop body treats the same
way. -/
structure Hierarchy where
  query : List (Nat × Opacity)
  children : Nat → List Nat

/-- `query.get(entity).map(|(_, x)| x.get()).unwrap_or(1.)`: the child's own
opacity, defaulting to `1.0` when it carries no `Opacity`. -/
def getOwn (q : List (Nat × Opacity)) (e : Nat) : ℚ :=
  match q.find? (fun row => row.1 == e) with
  | some row => row.2.current
  | none => 1

/-- The `for entity in children.iter()` loop body: push every child with the
popped effective value times the child's own opacity.  Rust pushes onto the
end of the `Vec` and pops from the end; the model's stack keeps its top at
the head, hence the `reverse`. -/
def pushChildren (h : Hierarchy) (eff : ℚ) (e : Nat) (stack : List (Nat × ℚ)) :
    List (Nat × ℚ) :=
  ((h.children e).map (fun c => (c, eff * getOwn h.query c))).reverse ++ stack

/-- The `while let Some((entity, opacity)) = stack.pop()` loop of
`calculate_opacity`, with explicit fuel: each pop unconditionally inserts the
popped pair into the map and pushes the children.  `none` means the fuel ran
out before the stack emptied. -/
def dfsLoop (h : Hierarchy) : Nat → List (Nat × ℚ) → OMap → Option OMap
  | _, [], m => some m
  | 0, _ :: _, _ => none
  | fuel+1, (e, eff) :: stack, m =>
    dfsLoop h fuel (pushChildren h eff e stack) (OMap.insert m e eff)

/-- The outer `for (entity, opacity) in &query` loop of `calculate_opacity`:
a query entity already present in the map is skipped, the others seed a
stack traversal with their own current value. -/
def calcLoop (h : Hierarchy) (fuel : Nat) : List (Nat × Opacity) → OMap → Option OMap
  | [], m => some m
  | (e, o) :: rest, m =>
    if (m e).isSome then calcLoop h fuel rest m
    else
      match dfsLoop h fuel [(e, o.get)] m with
      | some m1 => calcLoop h fuel rest m1
      | none => none

/-- `calculate_opacity`: clears the `OpacityMap` resource, then rebuilds it by
running the traversal for every query row. -/
def calculate_opacity (prior : OMap) (h : Hierarchy) (fuel : Nat) : Option OMap :=
  calcLoop h fuel h.query (OMap.clear prior)

/-- `apply_opacity_query::<Q>`: walk the sink's query rows in order, threading
the `StaticSystemParam` context `cx`; a row whose entity has an entry in the
map receives `Q::apply_opacity`, every other row is returned untouched. -/
def apply_opacity_query {α γ : Type} (map : OMap) (applyOp : α → γ → ℚ → α × γ) :
    List (Nat × α) → γ → List (Nat × α) × γ
  | [], cx => ([], cx)
  | (e, a) :: rest, cx =>
    match map e with
    | some opacity =>
      let s := applyOp a cx opacity
      let r := apply_opacity_query map applyOp rest s.2
      ((e, s.1) :: r.1, r.2)
    | none =>
      let r := apply_opacity_query map applyOp rest cx
      ((e, a) :: r.1, r.2)

/-- **C7.** The sink dispatch applies `apply_opacity` exactly to the query
rows whose entity has an entry in the effective-opacity table: the output is
row-for-row aligned with the input query, a row with no table entry is
returned completely unchanged, and a row with entry `v` has its attribute
replaced by `apply_opacity` of the old attribute at `v` (under the context as
threaded to that row). -/
theorem dispatch_touches_exactly_table {α γ : Type} (map : OMap)
    (applyOp : α → γ → ℚ → α × γ) (q : List (Nat × α)) (cx : γ) :
    List.Forall₂ (fun row out =>
        out.1 = row.1 ∧
        (map row.1 = none → out = row) ∧
        (∀ v, map row.1 = some v → ∃ cx2, out.2 = (applyOp row.2 cx2 v).1))
      q (apply_opacity_query map applyOp q cx).1 := by
  induction q generalizing cx with
  | nil => exact List.Forall₂.nil
  | cons row rest ih =>
    obtain ⟨e, a⟩ := row
    cases hmap : map e with
    | none =>
      simp only [apply_opacity_query, hmap]
      refine List.Forall₂.cons ⟨rfl, fun _ => rfl, ?_⟩ (ih cx)
      intro v hv
      rw [hmap] at hv
      exact absurd hv (by simp)
    | some v =>
      simp only [apply_opacity_query, hmap]
      refine List.Forall₂.cons ⟨rfl, ?_, ?_⟩ (ih _)
      · intro h0
        rw [hmap] at h0
        exact absurd h0 (by simp)
      · intro v2 hv2
        rw [hmap] at hv2
        obtain rfl : v = v2 := by injection hv2
        exact ⟨cx, rfl⟩

/-- **C7 witness.** The dispatch contract at a concrete table (entry only for
entity 0), a concrete alpha-setting sink and a two-row query. -/
theorem dispatch_touches_exactly_table_witness :
    List.Forall₂ (fun row out =>
        out.1 = row.1 ∧
        ((fun n => if n = 0 then some ((1 : ℚ)/2) else none) row.1 = none → out = row) ∧
        (∀ v, (fun n => if n = 0 then some ((1 : ℚ)/2) else none) row.1 = some v →
          ∃ cx2, out.2 = ((fun (_a : ℚ) (cx : Unit) (v : ℚ) => (v, cx)) row.2 cx2 v).1))
      [((0 : Nat), (1 : ℚ)), (1, 1)]
      (apply_opacity_query (fun n => if n = 0 then some ((1 : ℚ)/2) else none)
        (fun (_a : ℚ) (cx : Unit) (v : ℚ) => (v, cx)) [((0 : Nat), (1 : ℚ)), (1, 1)] ()).1 :=
  dispatch_touches_exactly_table (fun n => if n = 0 then some ((1 : ℚ)/2) else none)
    (fun (_a : ℚ) (cx : Unit) (v : ℚ) => (v, cx)) [((0 : Nat), (1 : ℚ)), (1, 1)] ()

/-- Two-node hierarchy in which the child (entity 1) carries its own
`Opacity` and is iterated by the query before its parent (entity 0). -/
def hierC2 : Hierarchy :=
  { query := [(1, Opacity.new (1/3)), (0, Opacity.new (1/2))]
    children := fun e => if e = 0 then [1] else [] }

/-- **C2 counterexample.** In `hierC2`, node 1 is first recorded with its own
value `1/3` (it is processed first as an opacity root), then reached again
during node 0's traversal and overwritten with `1/2 * 1/3 = 1/6`: the pop is
not skipped although the node is already recorded, and the first value
written does not win. -/
theorem calc_first_write_cex :
    (calculate_opacity OMap.empty hierC2 10).map (fun m => (m 0, m 1)) =
      some (some (1/2), some (1/6)) ∧ ((1 : ℚ)/3) ≠ 1/6 := by
  constructor
  · norm_num [calculate_opacity, calcLoop, dfsLoop, pushChildren, getOwn,
      OMap.insert, OMap.clear, OMap.empty, hierC2, Opacity.new, Opacity.get,
      List.find?]
  · norm_num

/-- **C2 (amended).** The already-recorded skip applies only to roots in the
outer query loop: a query entity already present in the table is not
re-traversed; but a node popped from the work stack inside the while loop is
always inserted, overwriting any existing entry, so when a node is reached
twice within one rebuild the last write wins. -/
theorem calc_overwrite_semantics :
    (∀ (h : Hierarchy) (fuel : Nat) (e : Nat) (o : Opacity) (rest : List (Nat × Opacity))
        (m : OMap), (m e).isSome = true →
      calcLoop h fuel ((e, o) :: rest) m = calcLoop h fuel rest m) ∧
    (∀ (h : Hierarchy) (fuel : Nat) (e : Nat) (v : ℚ) (stack : List (Nat × ℚ)) (m : OMap),
      dfsLoop h (fuel + 1) ((e, v) :: stack) m =
        dfsLoop h fuel (pushChildren h v e stack) (OMap.insert m e v)) ∧
    (∀ (m : OMap) (e : Nat) (v : ℚ), OMap.insert m e v e = some v) := by
  refine ⟨?_, ?_, ?_⟩
  · intro h fuel e o rest m hm
    simp [calcLoop, hm]
  · intro h fuel e v stack m
    rfl
  · intro m e v
    simp [OMap.insert]

/-- **C2 witness.** The outer-loop skip and the unconditional insert at
concrete inputs. -/
theorem calc_overwrite_semantics_witness :
    ((OMap.insert OMap.empty 0 1 0).isSome = true ∧
      calcLoop hierC2 5 [(0, Opacity.new 1)] (OMap.insert OMap.empty 0 1) =
        calcLoop hierC2 5 [] (OMap.insert OMap.empty 0 1)) ∧
    OMap.insert OMap.empty 0 (1/2) 0 = some (1/2) := by
  have hm : (OMap.insert OMap.empty 0 1 0).isSome = true := by
    simp [OMap.insert]
  exact ⟨⟨hm, calc_overwrite_semantics.1 hierC2 5 0 (Opacity.new 1) [] _ hm⟩,
    calc_overwrite_semantics.2.2 OMap.empty 0 (1/2)⟩

/-- Reachability along child links of a hierarchy. -/
inductive Reach (h : Hierarchy) : Nat → Nat → Prop
  | refl (e : Nat) : Reach h e e
  | step (e c n : Nat) : c ∈ h.children e → Reach h c n → Reach h e n

/-- Termination weight of a node relative to a rank bound: with rank fuel it
over-approximates the number of pops a traversal of the node's subtree
takes. -/
def wt (h : Hierarchy) : Nat → Nat → Nat
  | 0, _ => 1
  | r+1, e => 1 + ((h.children e).map (wt h r)).sum

def stackMeasure (h : Hierarchy) (rank : Nat → Nat) (stack : List (Nat × ℚ)) : Nat :=
  (stack.map (fun ev => wt h (rank ev.1) ev.1)).sum

theorem wt_pos (h : Hierarchy) (r e : Nat) : 0 < wt h r e := by
  cases r with
  | zero => exact Nat.one_pos
  | succ r =>
    show 0 < 1 + ((h.children e).map (wt h r)).sum
    omega

theorem wt_mono (h : Hierarchy) : ∀ r e, wt h r e ≤ wt h (r+1) e := by
  intro r
  induction r with
  | zero =>
    intro e
    show 1 ≤ 1 + ((h.children e).map (wt h 0)).sum
    omega
  | succ r ih =>
    intro e
    show 1 + ((h.children e).map (wt h r)).sum ≤ 1 + ((h.children e).map (wt h (r+1))).sum
    have : ((h.children e).map (wt h r)).sum ≤ ((h.children e).map (wt h (r+1))).sum :=
      List.sum_le_sum (fun c _ => ih c)
    omega

theorem wt_le_of_le (h : Hierarchy) {r1 r2 : Nat} (hle : r1 ≤ r2) (e : Nat) :
    wt h r1 e ≤ wt h r2 e := by
  induction hle with
  | refl => exact le_refl _
  | step h2 ih => exact le_trans ih (wt_mono h _ e)

theorem children_wt_lt (h : Hierarchy) (rank : Nat → Nat)
    (Hrank : ∀ p c, c ∈ h.children p → rank c < rank p) (e : Nat) :
    ((h.children e).map (fun c => wt h (rank c) c)).sum < wt h (rank e) e := by
  by_cases hnil : h.children e = []
  · rw [hnil]
    simp only [List.map_nil, List.sum_nil]
    exact wt_pos h _ _
  · obtain ⟨c0, hc0⟩ : ∃ c, c ∈ h.children e := by
      cases hh : h.children e with
      | nil => exact absurd hh hnil
      | cons a l => exact ⟨a, List.mem_cons_self a l⟩
    have h0 : rank c0 < rank e := Hrank e c0 hc0
    obtain ⟨k, hk⟩ : ∃ k, rank e = k + 1 := ⟨rank e - 1, by omega⟩
    have hle : ((h.children e).map (fun c => wt h (rank c) c)).sum ≤
        ((h.children e).map (wt h k)).sum := by
      apply List.sum_le_sum
      intro c hcmem
      have hck : rank c < rank e := Hrank e c hcmem
      exact wt_le_of_le h (by omega) c
    have heq : wt h (rank e) e = 1 + ((h.children e).map (wt h k)).sum := by
      rw [hk]
      rfl
    omega

theorem stackMeasure_push (h : Hierarchy) (rank : Nat → Nat)
    (Hrank : ∀ p c, c ∈ h.children p → rank c < rank p)
    (eff : ℚ) (e : Nat) (s : List (Nat × ℚ)) :
    stackMeasure h rank (pushChildren h eff e s) < stackMeasure h rank ((e, eff) :: s) := by
  unfold stackMeasure pushChildren
  rw [List.map_append, List.sum_append, List.map_reverse, List.sum_reverse, List.map_map]
  have hlt := children_wt_lt h rank Hrank e
  simp only [List.map_cons, List.sum_cons]
  have : (((h.children e).map
      ((fun ev => wt h (rank ev.1) ev.1) ∘ fun c => (c, eff * getOwn h.query c))).sum)
      = ((h.children e).map (fun c => wt h (rank c) c)).sum := rfl
  rw [this]
  omega

/-- Recursive (rank-fueled) reformulation of a single stack traversal: record
the node, then fold over the children in pop order (last pushed first), each
child's whole subtree being finished before its earlier siblings.  This is a
proof artifact: it is proven equal to the faithful stack machine `dfsLoop`
below. -/
def dfsRec (h : Hierarchy) : Nat → Nat → ℚ → OMap → OMap
  | 0, _, _, m => m
  | fuel+1, e, eff, m =>
    ((h.children e).reverse).foldl
      (fun acc c => dfsRec h fuel c (eff * getOwn h.query c) acc)
      (OMap.insert m e eff)

theorem dfsRec_succ (h : Hierarchy) (fuel : Nat) (e : Nat) (eff : ℚ) (m : OMap) :
    dfsRec h (fuel+1) e eff m =
      ((h.children e).reverse).foldl
        (fun acc c => dfsRec h fuel c (eff * getOwn h.query c) acc)
        (OMap.insert m e eff) := rfl

def stackFold (h : Hierarchy) (rank : Nat → Nat) (stack : List (Nat × ℚ)) (m : OMap) : OMap :=
  stack.foldl (fun acc ev => dfsRec h (rank ev.1 + 1) ev.1 ev.2 acc) m

theorem foldl_congr_mem {α β : Type} (l : List α) (f g : β → α → β) (b : β)
    (H : ∀ x ∈ l, ∀ acc, f acc x = g acc x) : l.foldl f b = l.foldl g b := by
  induction l generalizing b with
  | nil => rfl
  | cons a l ih =>
    rw [List.foldl_cons, List.foldl_cons, H a (List.mem_cons_self a l) b]
    exact ih _ (fun x hx acc => H x (List.mem_cons_of_mem a hx) acc)

theorem dfsRec_norm (h : Hierarchy) (rank : Nat → Nat)
    (Hrank : ∀ p c, c ∈ h.children p → rank c < rank p) :
    ∀ fuel e eff m, rank e < fuel → dfsRec h fuel e eff m = dfsRec h (rank e + 1) e eff m := by
  intro fuel
  induction fuel using Nat.strong_induction_on with
  | _ fuel IH =>
    intro e eff m hf
    obtain ⟨f, rfl⟩ : ∃ f, fuel = f + 1 := ⟨fuel - 1, by omega⟩
    rw [dfsRec_succ, dfsRec_succ]
    apply foldl_congr_mem
    intro c hc acc
    have hcc : c ∈ h.children e := List.mem_reverse.mp hc
    have h1 : rank c < rank e := Hrank e c hcc
    have e1 : dfsRec h f c (eff * getOwn h.query c) acc =
        dfsRec h (rank c + 1) c (eff * getOwn h.query c) acc :=
      IH f (by omega) c _ acc (by omega)
    have e2 : dfsRec h (rank e) c (eff * getOwn h.query c) acc =
        dfsRec h (rank c + 1) c (eff * getOwn h.query c) acc :=
      IH (rank e) (by omega) c _ acc (by omega)
    rw [e1, e2]

theorem stackFold_push (h : Hierarchy) (rank : Nat → Nat)
    (Hrank : ∀ p c, c ∈ h.children p → rank c < rank p)
    (eff : ℚ) (e : Nat) (s : List (Nat × ℚ)) (m : OMap) :
    stackFold h rank (pushChildren h eff e s) (OMap.insert m e eff) =
      stackFold h rank ((e, eff) :: s) m := by
  unfold stackFold pushChildren
  rw [List.foldl_append, List.foldl_cons]
  congr 1
  rw [← List.map_reverse, List.foldl_map]
  rw [dfsRec_succ]
  apply foldl_congr_mem
  intro c hc acc
  have hcc : c ∈ h.children e := List.mem_reverse.mp hc
  have h1 : rank c < rank e := Hrank e c hcc
  show dfsRec h (rank c + 1) c (eff * getOwn h.query c) acc =
    dfsRec h (rank e) c (eff * getOwn h.query c) acc
  rw [dfsRec_norm h rank Hrank (rank e) c _ acc (by omega)]

theorem dfsLoop_eq_stackFold (h : Hierarchy) (rank : Nat → Nat)
    (Hrank : ∀ p c, c ∈ h.children p → rank c < rank p) :
    ∀ fuel stack m, stackMeasure h rank stack ≤ fuel →
      dfsLoop h fuel stack m = some (stackFold h rank stack m) := by
  intro fuel
  induction fuel with
  | zero =>
    intro stack m hm
    cases stack with
    | nil => rfl
    | cons ev s =>
      exfalso
      have h1 : 0 < wt h (rank ev.1) ev.1 := wt_pos h _ _
      have h2 : wt h (rank ev.1) ev.1 ≤ stackMeasure h rank (ev :: s) := by
        unfold stackMeasure
        simp only [List.map_cons, List.sum_cons]
        omega
      omega
  | succ fuel ih =>
    intro stack m hm
    cases stack with
    | nil => rfl
    | cons ev s =>
      obtain ⟨e, eff⟩ := ev
      have hpush : stackMeasure h rank (pushChildren h eff e s) <
          stackMeasure h rank ((e, eff) :: s) := stackMeasure_push h rank Hrank eff e s
      show dfsLoop h fuel (pushChildren h eff e s) (OMap.insert m e eff) =
        some (stackFold h rank ((e, eff) :: s) m)
      rw [ih _ _ (by omega), stackFold_push h rank Hrank eff e s m]

theorem dfsLoop_fuel_succ (h : Hierarchy) :
    ∀ fuel stack m m1, dfsLoop h fuel stack m = some m1 →
      dfsLoop h (fuel+1) stack m = some m1 := by
  intro fuel
  induction fuel with
  | zero =>
    intro stack m m1 hrun
    cases stack with
    | nil => exact hrun
    | cons ev s => exact absurd hrun (by simp [dfsLoop])
  | succ fuel ih =>
    intro stack m m1 hrun
    cases stack with
    | nil => exact hrun
    | cons ev s =>
      obtain ⟨e, eff⟩ := ev
      exact ih _ _ _ hrun

theorem dfsLoop_fuel_le (h : Hierarchy) {fuel fuel2 : Nat} (hle : fuel ≤ fuel2) :
    ∀ stack m m1, dfsLoop h fuel stack m = some m1 → dfsLoop h fuel2 stack m = some m1 := by
  induction hle with
  | refl => intro stack m m1 hrun; exact hrun
  | step h2 ih =>
    intro stack m m1 hrun
    exact dfsLoop_fuel_succ h _ _ _ _ (ih _ _ _ hrun)

theorem dfsLoop_some_eq (h : Hierarchy) (rank : Nat → Nat)
    (Hrank : ∀ p c, c ∈ h.children p → rank c < rank p)
    (fuel : Nat) (stack : List (Nat × ℚ)) (m m1 : OMap)
    (hrun : dfsLoop h fuel stack m = some m1) :
    m1 = stackFold h rank stack m := by
  have hbig := dfsLoop_fuel_le h (le_max_left fuel (stackMeasure h rank stack)) stack m m1 hrun
  have heq := dfsLoop_eq_stackFold h rank Hrank (max fuel (stackMeasure h rank stack)) stack m
    (le_max_right _ _)
  rw [hbig] at heq
  exact Option.some.inj heq

/-- Rank-fueled recursive version of the outer loop of `calculate_opacity`. -/
def calcRec (h : Hierarchy) (rank : Nat → Nat) : List (Nat × Opacity) → OMap → OMap
  | [], m => m
  | (e, o) :: rest, m =>
    if (m e).isSome then calcRec h rank rest m
    else calcRec h rank rest (dfsRec h (rank e + 1) e o.get m)

theorem calcLoop_eq_calcRec (h : Hierarchy) (rank : Nat → Nat)
    (Hrank : ∀ p c, c ∈ h.children p → rank c < rank p) :
    ∀ qs fuel m0 m, calcLoop h fuel qs m0 = some m → m = calcRec h rank qs m0 := by
  intro qs
  induction qs with
  | nil =>
    intro fuel m0 m hrun
    exact (Option.some.inj hrun).symm
  | cons row rest ih =>
    obtain ⟨e, o⟩ := row
    intro fuel m0 m hrun
    by_cases hm : (m0 e).isSome = true
    · simp only [calcLoop] at hrun
      rw [if_pos hm] at hrun
      rw [calcRec, if_pos hm]
      exact ih fuel m0 m hrun
    · simp only [calcLoop] at hrun
      rw [if_neg hm] at hrun
      cases hdfs : dfsLoop h fuel [(e, o.get)] m0 with
      | none => rw [hdfs] at hrun; exact absurd hrun (by simp)
      | some m2 =>
        rw [hdfs] at hrun
        have hm2 : m2 = dfsRec h (rank e + 1) e o.get m0 :=
          dfsLoop_some_eq h rank Hrank fuel [(e, o.get)] m0 m2 hdfs
        rw [calcRec, if_neg hm]
        rw [hm2] at hrun
        exact ih fuel _ m hrun

/-- Fuel sufficient to finish every traversal of `calculate_opacity`: the sum
of the subtree weights of all query entities. -/
def rootsMeasure (h : Hierarchy) (rank : Nat → Nat) : Nat :=
  (h.query.map (fun row => wt h (rank row.1) row.1)).sum

theorem calculate_total (h : Hierarchy) (rank : Nat → Nat)
    (Hrank : ∀ p c, c ∈ h.children p → rank c < rank p) (prior : OMap) :
    ∃ m, calculate_opacity prior h (rootsMeasure h rank) = some m := by
  have main : ∀ (qs : List (Nat × Opacity)) (m0 : OMap),
      (∀ row ∈ qs, wt h (rank row.1) row.1 ≤ rootsMeasure h rank) →
      ∃ m, calcLoop h (rootsMeasure h rank) qs m0 = some m := by
    intro qs
    induction qs with
    | nil => intro m0 _; exact ⟨m0, rfl⟩
    | cons row rest ih =>
      obtain ⟨e, o⟩ := row
      intro m0 hw
      by_cases hm : (m0 e).isSome = true
      · obtain ⟨m, hm'⟩ := ih m0 (fun r hr => hw r (List.mem_cons_of_mem _ hr))
        refine ⟨m, ?_⟩
        simp only [calcLoop]
        rw [if_pos hm]
        exact hm'
      · have hfuel : stackMeasure h rank [(e, o.get)] ≤ rootsMeasure h rank := by
          have hb : wt h (rank e) e ≤ rootsMeasure h rank :=
            hw (e, o) (List.mem_cons_self _ rest)
          unfold stackMeasure
          simp only [List.map_cons, List.map_nil, List.sum_cons, List.sum_nil]
          omega
        have hd := dfsLoop_eq_stackFold h rank Hrank (rootsMeasure h rank) [(e, o.get)] m0 hfuel
        obtain ⟨m, hm'⟩ := ih (stackFold h rank [(e, o.get)] m0)
          (fun r hr => hw r (List.mem_cons_of_mem _ hr))
        refine ⟨m, ?_⟩
        simp only [calcLoop]
        rw [if_neg hm, hd]
        exact hm'
  apply main h.query (OMap.clear prior)
  intro row hrow
  exact List.single_le_sum (fun x _ => Nat.zero_le x) _
    (List.mem_map_of_mem (fun row => wt h (rank row.1) row.1) hrow)

/-- **C8.** On any hierarchy whose child links admit a decreasing rank (in
particular any finite forest, as the host scene graph guarantees), the
stack-based traversal of `calculate_opacity` terminates: fuel equal to the
total weight of the opacity subtrees (one unit per stack pop) lets every
while loop pop its stack to empty, so the whole rebuild finishes with a
table. -/
theorem calculate_terminates (h : Hierarchy) (rank : Nat → Nat)
    (Hrank : ∀ p c, c ∈ h.children p → rank c < rank p) (prior : OMap) :
    ∃ m, calculate_opacity prior h (rootsMeasure h rank) = some m :=
  calculate_total h rank Hrank prior

/-- Rank function witnessing acyclicity of `hierC2`. -/
def rankC2 : Nat → Nat := fun e => if e = 0 then 1 else 0

theorem rankC2_ok : ∀ p c, c ∈ hierC2.children p → rankC2 c < rankC2 p := by
  intro p c hc
  have hc' : c ∈ (if p = 0 then [1] else ([] : List Nat)) := hc
  by_cases hp : p = 0
  · rw [if_pos hp] at hc'
    have hc1 : c = 1 := by simpa using hc'
    rw [hc1, hp]
    norm_num [rankC2]
  · rw [if_neg hp] at hc'
    exact absurd hc' (by simp)

/-- **C8 witness.** Termination on the concrete two-node hierarchy. -/
theorem calculate_terminates_witness :
    (∀ p c, c ∈ hierC2.children p → rankC2 c < rankC2 p) ∧
    ∃ m, calculate_opacity OMap.empty hierC2 (rootsMeasure hierC2 rankC2) = some m :=
  ⟨rankC2_ok, calculate_terminates hierC2 rankC2 rankC2_ok OMap.empty⟩

theorem reach_cases (h : Hierarchy) (e x : Nat) (hr : Reach h e x) :
    x = e ∨ ∃ c ∈ h.children e, Reach h c x := by
  cases hr with
  | refl => exact Or.inl rfl
  | step e c n hc hcx => exact Or.inr ⟨c, hc, hcx⟩

/-- The table is closed under child links. -/
def Closed (h : Hierarchy) (m : OMap) : Prop :=
  ∀ p, (m p).isSome = true → ∀ c ∈ h.children p, (m c).isSome = true

theorem reach_dom_of_closed (h : Hierarchy) (m : OMap) (hcl : Closed h m) :
    ∀ e x, Reach h e x → (m e).isSome = true → (m x).isSome = true := by
  intro e x hr
  induction hr with
  | refl e => exact fun hx => hx
  | step e c n hc hr ih => intro he; exact ih (hcl e he c hc)

theorem dfsLoop_dom_mono (h : Hierarchy) :
    ∀ fuel stack m m1, dfsLoop h fuel stack m = some m1 →
      ∀ x, (m x).isSome = true → (m1 x).isSome = true := by
  intro fuel
  induction fuel with
  | zero =>
    intro stack m m1 hrun x hx
    cases stack with
    | nil => rw [← Option.some.inj hrun]; exact hx
    | cons ev s => exact absurd hrun (by simp [dfsLoop])
  | succ fuel ih =>
    intro stack m m1 hrun x hx
    cases stack with
    | nil => rw [← Option.some.inj hrun]; exact hx
    | cons ev s =>
      obtain ⟨e, eff⟩ := ev
      refine ih _ _ _ hrun x ?_
      by_cases hxe : x = e
      · rw [hxe, OMap.insert_self]
        rfl
      · rw [OMap.insert_ne m e eff x hxe]
        exact hx

theorem dfsLoop_stack_dom (h : Hierarchy) :
    ∀ fuel stack m m1, dfsLoop h fuel stack m = some m1 →
      ∀ x v, (x, v) ∈ stack → (m1 x).isSome = true := by
  intro fuel
  induction fuel with
  | zero =>
    intro stack m m1 hrun x v hmem
    cases stack with
    | nil => exact absurd hmem (by simp)
    | cons ev s => exact absurd hrun (by simp [dfsLoop])
  | succ fuel ih =>
    intro stack m m1 hrun x v hmem
    cases stack with
    | nil => exact absurd hmem (by simp)
    | cons ev s =>
      obtain ⟨e, eff⟩ := ev
      rcases List.mem_cons.mp hmem with h2 | h2
      · have hxe : x = e := congrArg Prod.fst h2
        have hrun' : dfsLoop h fuel (pushChildren h eff e s) (OMap.insert m e eff) = some m1 :=
          hrun
        refine dfsLoop_dom_mono h fuel _ _ _ hrun' x ?_
        rw [hxe, OMap.insert_self]
        rfl
      · exact ih _ _ _ hrun x v (List.mem_append.mpr (Or.inr h2))

theorem dfsLoop_closed (h : Hierarchy) :
    ∀ fuel stack m m1,
      (∀ p, (m p).isSome = true → ∀ c ∈ h.children p,
        (m c).isSome = true ∨ ∃ v, (c, v) ∈ stack) →
      dfsLoop h fuel stack m = some m1 → Closed h m1 := by
  intro fuel
  induction fuel with
  | zero =>
    intro stack m m1 hinv hrun
    cases stack with
    | nil =>
      obtain rfl : m = m1 := Option.some.inj hrun
      intro p hp c hc
      rcases hinv p hp c hc with h1 | ⟨v, hv⟩
      · exact h1
      · exact absurd hv (by simp)
    | cons ev s => exact absurd hrun (by simp [dfsLoop])
  | succ fuel ih =>
    intro stack m m1 hinv hrun
    cases stack with
    | nil =>
      obtain rfl : m = m1 := Option.some.inj hrun
      intro p hp c hc
      rcases hinv p hp c hc with h1 | ⟨v, hv⟩
      · exact h1
      · exact absurd hv (by simp)
    | cons ev s =>
      obtain ⟨e, eff⟩ := ev
      refine ih (pushChildren h eff e s) (OMap.insert m e eff) m1 ?_ hrun
      intro p hp c hc
      by_cases hpe : p = e
      · subst hpe
        right
        refine ⟨eff * getOwn h.query c, ?_⟩
        unfold pushChildren
        apply List.mem_append.mpr
        left
        apply List.mem_reverse.mpr
        exact List.mem_map_of_mem _ hc
      · have hp' : (m p).isSome = true := by
          rw [OMap.insert_ne m e eff p hpe] at hp
          exact hp
        rcases hinv p hp' c hc with h1 | ⟨v, hv⟩
        · left
          by_cases hce : c = e
          · rw [hce, OMap.insert_self]
            rfl
          · rw [OMap.insert_ne m e eff c hce]
            exact h1
        · rcases List.mem_cons.mp hv with h2 | h2
          · left
            have hce : c = e := congrArg Prod.fst h2
            rw [hce, OMap.insert_self]
            rfl
          · right
            exact ⟨v, List.mem_append.mpr (Or.inr h2)⟩

theorem dfsLoop_reach (h : Hierarchy) :
    ∀ fuel stack m m1, dfsLoop h fuel stack m = some m1 →
      ∀ x, (m1 x).isSome = true →
        (m x).isSome = true ∨ ∃ e v, (e, v) ∈ stack ∧ Reach h e x := by
  intro fuel
  induction fuel with
  | zero =>
    intro stack m m1 hrun x hx
    cases stack with
    | nil =>
      obtain rfl : m = m1 := Option.some.inj hrun
      exact Or.inl hx
    | cons ev s => exact absurd hrun (by simp [dfsLoop])
  | succ fuel ih =>
    intro stack m m1 hrun x hx
    cases stack with
    | nil =>
      obtain rfl : m = m1 := Option.some.inj hrun
      exact Or.inl hx
    | cons ev s =>
      obtain ⟨e, eff⟩ := ev
      rcases ih _ _ _ hrun x hx with h1 | ⟨e2, v2, hmem, hreach⟩
      · by_cases hxe : x = e
        · subst hxe
          exact Or.inr ⟨x, eff, List.mem_cons_self _ _, Reach.refl x⟩
        · rw [OMap.insert_ne m e eff x hxe] at h1
          exact Or.inl h1
      · unfold pushChildren at hmem
        rcases List.mem_append.mp hmem with h2 | h2
        · rw [List.mem_reverse] at h2
          obtain ⟨c, hc, heq⟩ := List.mem_map.mp h2
          have hce : c = e2 := congrArg Prod.fst heq
          exact Or.inr ⟨e, eff, List.mem_cons_self _ _,
            Reach.step e e2 x (hce ▸ hc) hreach⟩
        · exact Or.inr ⟨e2, v2, List.mem_cons_of_mem _ h2, hreach⟩

theorem calcLoop_dom_mono (h : Hierarchy) :
    ∀ qs fuel m0 m, calcLoop h fuel qs m0 = some m →
      ∀ x, (m0 x).isSome = true → (m x).isSome = true := by
  intro qs
  induction qs with
  | nil =>
    intro fuel m0 m hrun x hx
    rw [← Option.some.inj hrun]
    exact hx
  | cons row rest ih =>
    obtain ⟨e, o⟩ := row
    intro fuel m0 m hrun x hx
    simp only [calcLoop] at hrun
    by_cases hm : (m0 e).isSome = true
    · rw [if_pos hm] at hrun
      exact ih fuel m0 m hrun x hx
    · rw [if_neg hm] at hrun
      cases hdfs : dfsLoop h fuel [(e, o.get)] m0 with
      | none => rw [hdfs] at hrun; exact absurd hrun (by simp)
      | some m2 =>
        rw [hdfs] at hrun
        exact ih fuel m2 m hrun x (dfsLoop_dom_mono h fuel _ m0 m2 hdfs x hx)

theorem calcLoop_closed (h : Hierarchy) :
    ∀ qs fuel m0 m, Closed h m0 → calcLoop h fuel qs m0 = some m → Closed h m := by
  intro qs
  induction qs with
  | nil =>
    intro fuel m0 m hcl hrun
    rw [← Option.some.inj hrun]
    exact hcl
  | cons row rest ih =>
    obtain ⟨e, o⟩ := row
    intro fuel m0 m hcl hrun
    simp only [calcLoop] at hrun
    by_cases hm : (m0 e).isSome = true
    · rw [if_pos hm] at hrun
      exact ih fuel m0 m hcl hrun
    · rw [if_neg hm] at hrun
      cases hdfs : dfsLoop h fuel [(e, o.get)] m0 with
      | none => rw [hdfs] at hrun; exact absurd hrun (by simp)
      | some m2 =>
        rw [hdfs] at hrun
        have hcl2 : Closed h m2 :=
          dfsLoop_closed h fuel _ m0 m2 (fun p hp c hc => Or.inl (hcl p hp c hc)) hdfs
        exact ih fuel m2 m hcl2 hrun

theorem calcLoop_roots (h : Hierarchy) :
    ∀ qs fuel m0 m, calcLoop h fuel qs m0 = some m →
      ∀ e o, (e, o) ∈ qs → (m e).isSome = true := by
  intro qs
  induction qs with
  | nil =>
    intro fuel m0 m hrun e o hmem
    exact absurd hmem (by simp)
  | cons row rest ih =>
    obtain ⟨e0, o0⟩ := row
    intro fuel m0 m hrun e o hmem
    simp only [calcLoop] at hrun
    by_cases hm : (m0 e0).isSome = true
    · rw [if_pos hm] at hrun
      rcases List.mem_cons.mp hmem with h2 | h2
      · have he : e = e0 := congrArg Prod.fst h2
        rw [he]
        exact calcLoop_dom_mono h rest fuel m0 m hrun e0 hm
      · exact ih fuel m0 m hrun e o h2
    · rw [if_neg hm] at hrun
      cases hdfs : dfsLoop h fuel [(e0, o0.get)] m0 with
      | none => rw [hdfs] at hrun; exact absurd hrun (by simp)
      | some m2 =>
        rw [hdfs] at hrun
        rcases List.mem_cons.mp hmem with h2 | h2
        · have he : e = e0 := congrArg Prod.fst h2
          rw [he]
          have h0 : (m2 e0).isSome = true :=
            dfsLoop_stack_dom h fuel _ m0 m2 hdfs e0 o0.get (List.mem_cons_self _ _)
          exact calcLoop_dom_mono h rest fuel m2 m hrun e0 h0
        · exact ih fuel m2 m hrun e o h2

theorem calcLoop_reach (h : Hierarchy) :
    ∀ qs fuel m0 m, calcLoop h fuel qs m0 = some m →
      ∀ x, (m x).isSome = true →
        (m0 x).isSome = true ∨ ∃ e o, (e, o) ∈ qs ∧ Reach h e x := by
  intro qs
  induction qs with
  | nil =>
    intro fuel m0 m hrun x hx
    rw [← Option.some.inj hrun] at hx
    exact Or.inl hx
  | cons row rest ih =>
    obtain ⟨e0, o0⟩ := row
    intro fuel m0 m hrun x hx
    simp only [calcLoop] at hrun
    by_cases hm : (m0 e0).isSome = true
    · rw [if_pos hm] at hrun
      rcases ih fuel m0 m hrun x hx with h1 | ⟨e, o, hmem, hr⟩
      · exact Or.inl h1
      · exact Or.inr ⟨e, o, List.mem_cons_of_mem _ hmem, hr⟩
    · rw [if_neg hm] at hrun
      cases hdfs : dfsLoop h fuel [(e0, o0.get)] m0 with
      | none => rw [hdfs] at hrun; exact absurd hrun (by simp)
      | some m2 =>
        rw [hdfs] at hrun
        rcases ih fuel m2 m hrun x hx with h1 | ⟨e, o, hmem, hr⟩
        · rcases dfsLoop_reach h fuel _ m0 m2 hdfs x h1 with h3 | ⟨e2, v2, hmem2, hr2⟩
          · exact Or.inl h3
          · have he2 : e2 = e0 := by
              rcases List.mem_cons.mp hmem2 with h4 | h4
              · exact congrArg Prod.fst h4
              · exact absurd h4 (by simp)
            exact Or.inr ⟨e0, o0, List.mem_cons_self _ _, he2 ▸ hr2⟩
        · exact Or.inr ⟨e, o, List.mem_cons_of_mem _ hmem, hr⟩

/-- **C5.** After a successful `calculate_opacity` run the table has an entry
exactly for the nodes transitively reachable via child links from some query
entity (a node carrying an `OpacityValue`), whatever the hierarchy shape; and
since the resource is cleared at the start of the rebuild, the result does
not depend on the table contents of the previous frame. -/
theorem table_domain_spec (h : Hierarchy) (prior : OMap) (fuel : Nat) (m : OMap)
    (hrun : calculate_opacity prior h fuel = some m) :
    (∀ x, (m x).isSome = true ↔ ∃ e o, (e, o) ∈ h.query ∧ Reach h e x) ∧
    (∀ prior2, calculate_opacity prior2 h fuel = some m) := by
  constructor
  · intro x
    constructor
    · intro hx
      rcases calcLoop_reach h h.query fuel (OMap.clear prior) m hrun x hx with h1 | h1
      · exact absurd h1 (by simp [OMap.clear])
      · exact h1
    · rintro ⟨e, o, hmem, hreach⟩
      have hcl : Closed h m := calcLoop_closed h h.query fuel (OMap.clear prior) m
        (fun p hp => absurd hp (by simp [OMap.clear])) hrun
      have he : (m e).isSome = true := calcLoop_roots h h.query fuel _ m hrun e o hmem
      exact reach_dom_of_closed h m hcl e x hreach he
  · intro prior2
    exact hrun

/-- One-root hierarchy: entity 0 carries an `Opacity`, its child 1 carries
none, and entity 2 is unrelated to both. -/
def hierC5 : Hierarchy :=
  { query := [(0, Opacity.new (1/2))]
    children := fun e => if e = 0 then [1] else [] }

theorem rankC5_ok : ∀ p c, c ∈ hierC5.children p → rankC2 c < rankC2 p := by
  intro p c hc
  have hc' : c ∈ (if p = 0 then [1] else ([] : List Nat)) := hc
  by_cases hp : p = 0
  · rw [if_pos hp] at hc'
    have hc1 : c = 1 := by simpa using hc'
    rw [hc1, hp]
    norm_num [rankC2]
  · rw [if_neg hp] at hc'
    exact absurd hc' (by simp)

/-- **C5 witness.** In `hierC5` the rebuilt table contains the reachable
child 1 but not the unrelated entity 2. -/
theorem table_domain_spec_witness :
    (calculate_opacity OMap.empty hierC5 (rootsMeasure hierC5 rankC2)).map
        (fun m => ((m 1).isSome, (m 2).isSome)) =
      some (true, false) := by
  cases hEq : calculate_opacity OMap.empty hierC5 (rootsMeasure hierC5 rankC2) with
  | none =>
    obtain ⟨m', hm'⟩ := calculate_total hierC5 rankC2 rankC5_ok OMap.empty
    rw [hEq] at hm'
    exact absurd hm' (by simp)
  | some m =>
    have hspec := table_domain_spec hierC5 OMap.empty (rootsMeasure hierC5 rankC2) m hEq
    have h1 : (m 1).isSome = true := (hspec.1 1).mpr
      ⟨0, Opacity.new (1/2), by simp [hierC5],
        Reach.step 0 1 1 (by simp [hierC5]) (Reach.refl 1)⟩
    have h2 : (m 2).isSome = false := by
      rw [Bool.eq_false_iff]
      intro h2t
      obtain ⟨e, o, hmem, hreach⟩ := (hspec.1 2).mp h2t
      have he0 : e = 0 := by
        have : (e, o) ∈ [(0, Opacity.new (1/2))] := hmem
        simp at this
        exact this.1
      subst he0
      rcases reach_cases hierC5 0 2 hreach with h3 | ⟨c, hc, hr⟩
      · exact absurd h3 (by norm_num)
      · have hc1 : c = 1 := by simpa [hierC5] using hc
        subst hc1
        rcases reach_cases hierC5 1 2 hr with h3 | ⟨c2, hc2, _⟩
        · exact absurd h3 (by norm_num)
        · exact absurd hc2 (by simp [hierC5])
    simp only [Option.map_some']
    rw [h1, h2]

theorem reach_rank_le (h : Hierarchy) (rank : Nat → Nat)
    (Hrank : ∀ p c, c ∈ h.children p → rank c < rank p) :
    ∀ e x, Reach h e x → rank x ≤ rank e := by
  intro e x hr
  induction hr with
  | refl e => exact le_refl _
  | step e c n hc hr ih => exact le_trans ih (le_of_lt (Hrank e c hc))

theorem reach_snoc (h : Hierarchy) :
    ∀ e x, Reach h e x → x = e ∨ ∃ p, Reach h e p ∧ x ∈ h.children p := by
  intro e x hr
  induction hr with
  | refl e => exact Or.inl rfl
  | step e c n hc hr ih =>
    rcases ih with h1 | ⟨p, hrp, hmem⟩
    · exact Or.inr ⟨e, Reach.refl e, h1 ▸ hc⟩
    · exact Or.inr ⟨p, Reach.step e c p hc hrp, hmem⟩

theorem reach_extend (h : Hierarchy) :
    ∀ e p c, Reach h e p → c ∈ h.children p → Reach h e c := by
  intro e p c hr
  induction hr with
  | refl e => exact fun hc => Reach.step e c c hc (Reach.refl c)
  | step e d n hd hr ih => exact fun hc => Reach.step e d c hd (ih hc)

theorem sibling_not_reach (h : Hierarchy) (rank : Nat → Nat)
    (Hrank : ∀ p c, c ∈ h.children p → rank c < rank p)
    (Huniq : ∀ p q c, c ∈ h.children p → c ∈ h.children q → p = q)
    (e c n : Nat) (hc : c ∈ h.children e) (hn : n ∈ h.children e) (hne : c ≠ n) :
    ¬ Reach h c n := by
  intro hr
  rcases reach_snoc h c n hr with h1 | ⟨p, hrp, hmem⟩
  · exact hne h1.symm
  · have hpe : p = e := Huniq p e n hmem hn
    rw [hpe] at hrp
    have h2 := reach_rank_le h rank Hrank c e hrp
    have h3 := Hrank e c hc
    omega

/-- Parent-product property of a table, modulo an exception set `X` of pairs:
every recorded node whose parent is also recorded and whose pair is not in
`X` holds its own opacity times the parent's recorded value. -/
def Gex (h : Hierarchy) (m : OMap) (X : Nat → Nat → Prop) : Prop :=
  ∀ p n vn vp, n ∈ h.children p → ¬ X p n → m n = some vn → m p = some vp →
    vn = getOwn h.query n * vp

theorem gex_mono (h : Hierarchy) (m : OMap) (X1 X2 : Nat → Nat → Prop)
    (himp : ∀ p n, X1 p n → X2 p n) (hg : Gex h m X1) : Gex h m X2 :=
  fun p n vn vp hpn hnx hn hp => hg p n vn vp hpn (fun hx => hnx (himp p n hx)) hn hp

theorem dfsRec_dom (h : Hierarchy) (rank : Nat → Nat)
    (Hrank : ∀ p c, c ∈ h.children p → rank c < rank p) :
    ∀ fuel e v m, rank e < fuel →
      ∀ x, ((dfsRec h fuel e v m) x).isSome = true ↔
        ((m x).isSome = true ∨ Reach h e x) := by
  intro fuel
  induction fuel using Nat.strong_induction_on with
  | _ fuel IHf =>
    intro e v m hf x
    obtain ⟨f, rfl⟩ : ∃ f, fuel = f + 1 := ⟨fuel - 1, by omega⟩
    rw [dfsRec_succ]
    have inner : ∀ (cs : List Nat), (∀ c ∈ cs, rank c < f) →
        ∀ (acc : OMap) (y : Nat),
        ((List.foldl (fun acc c => dfsRec h f c (v * getOwn h.query c) acc) acc cs) y).isSome
            = true ↔
          ((acc y).isSome = true ∨ ∃ c ∈ cs, Reach h c y) := by
      intro cs
      induction cs with
      | nil =>
        intro _ acc y
        simp
      | cons c cs' ih =>
        intro hranks acc y
        rw [List.foldl_cons]
        rw [ih (fun d hd => hranks d (List.mem_cons_of_mem c hd)) _ y]
        rw [IHf f (by omega) c _ acc (hranks c (List.mem_cons_self c cs')) y]
        constructor
        · rintro ((hy | hy) | ⟨d, hd, hr⟩)
          · exact Or.inl hy
          · exact Or.inr ⟨c, List.mem_cons_self c cs', hy⟩
          · exact Or.inr ⟨d, List.mem_cons_of_mem c hd, hr⟩
        · rintro (hy | ⟨d, hd, hr⟩)
          · exact Or.inl (Or.inl hy)
          · rcases List.mem_cons.mp hd with h1 | h1
            · exact Or.inl (Or.inr (h1 ▸ hr))
            · exact Or.inr ⟨d, h1, hr⟩
    rw [inner ((h.children e).reverse)
      (fun c hcm => by have := Hrank e c (List.mem_reverse.mp hcm); omega)
      (OMap.insert m e v) x]
    constructor
    · rintro (hy | ⟨c, hcm, hr⟩)
      · by_cases hxe : x = e
        · exact Or.inr (by rw [hxe]; exact Reach.refl e)
        · rw [OMap.insert_ne m e v x hxe] at hy
          exact Or.inl hy
      · exact Or.inr (Reach.step e c x (List.mem_reverse.mp hcm) hr)
    · rintro (hy | hr)
      · left
        by_cases hxe : x = e
        · rw [hxe, OMap.insert_self]
          rfl
        · rw [OMap.insert_ne m e v x hxe]
          exact hy
      · rcases reach_cases h e x hr with h1 | ⟨c, hc, hcr⟩
        · left
          rw [h1, OMap.insert_self]
          rfl
        · exact Or.inr ⟨c, List.mem_reverse.mpr hc, hcr⟩

theorem dfsRec_gex (h : Hierarchy) (rank : Nat → Nat)
    (Hrank : ∀ p c, c ∈ h.children p → rank c < rank p)
    (Huniq : ∀ p q c, c ∈ h.children p → c ∈ h.children q → p = q)
    (Hnodup : ∀ p, (h.children p).Nodup) :
    ∀ fuel e v m X, rank e < fuel →
      (∀ p vp, e ∈ h.children p → m p = some vp → v = getOwn h.query e * vp) →
      Gex h m (fun p n => X p n ∨ n = e) →
      (∀ p n, X p n → ¬ Reach h e p ∧ ¬ Reach h e n) →
      Gex h (dfsRec h fuel e v m) X ∧
      dfsRec h fuel e v m e = some v ∧
      (∀ x, ¬ Reach h e x → dfsRec h fuel e v m x = m x) := by
  intro fuel
  induction fuel using Nat.strong_induction_on with
  | _ fuel IHf =>
    intro e v m X hf ha hb hc
    obtain ⟨f, rfl⟩ : ∃ f, fuel = f + 1 := ⟨fuel - 1, by omega⟩
    rw [dfsRec_succ]
    have inner : ∀ (cs : List Nat), (∀ c ∈ cs, c ∈ h.children e) → cs.Nodup →
        ∀ (acc : OMap), acc e = some v →
        Gex h acc (fun p n => X p n ∨ (p = e ∧ n ∈ cs)) →
        Gex h (List.foldl (fun acc c => dfsRec h f c (v * getOwn h.query c) acc) acc cs) X ∧
        (List.foldl (fun acc c => dfsRec h f c (v * getOwn h.query c) acc) acc cs) e = some v ∧
        (∀ x, (∀ c ∈ cs, ¬ Reach h c x) →
          (List.foldl (fun acc c => dfsRec h f c (v * getOwn h.query c) acc) acc cs) x
            = acc x) := by
      intro cs
      induction cs with
      | nil =>
        intro _ _ acc hacce hgex
        refine ⟨?_, hacce, fun x _ => rfl⟩
        intro p n vn vp hpn hnx hn hp
        refine hgex p n vn vp hpn ?_ hn hp
        intro hor
        rcases hor with hx | ⟨_, hmem⟩
        · exact hnx hx
        · exact absurd hmem (by simp)
      | cons c cs' ih =>
        intro hsub hnodup acc hacce hgex
        have hcc : c ∈ h.children e := hsub c (List.mem_cons_self c cs')
        have hrc : rank c < rank e := Hrank e c hcc
        have hnotin : c ∉ cs' := (List.nodup_cons.mp hnodup).1
        have hnd' : cs'.Nodup := (List.nodup_cons.mp hnodup).2
        have hA : ∀ p vp, c ∈ h.children p → acc p = some vp →
            v * getOwn h.query c = getOwn h.query c * vp := by
          intro p vp hcp hacc
          have hpe : p = e := Huniq p e c hcp hcc
          rw [hpe, hacce] at hacc
          have hv : v = vp := Option.some.inj hacc
          rw [← hv]
          ring
        have hB : Gex h acc (fun p n => (X p n ∨ (p = e ∧ n ∈ cs')) ∨ n = c) := by
          refine gex_mono h acc _ _ ?_ hgex
          intro p n hx
          rcases hx with hx | ⟨hpe, hmem⟩
          · exact Or.inl (Or.inl hx)
          · rcases List.mem_cons.mp hmem with h1 | h1
            · exact Or.inr h1
            · exact Or.inl (Or.inr ⟨hpe, h1⟩)
        have hC : ∀ p n, (X p n ∨ (p = e ∧ n ∈ cs')) →
            ¬ Reach h c p ∧ ¬ Reach h c n := by
          intro p n hx
          rcases hx with hx | ⟨hpe, hmem⟩
          · obtain ⟨h1, h2⟩ := hc p n hx
            exact ⟨fun hr => h1 (Reach.step e c p hcc hr),
              fun hr => h2 (Reach.step e c n hcc hr)⟩
          · constructor
            · intro hr
              have h1 := reach_rank_le h rank Hrank c p hr
              rw [hpe] at h1
              omega
            · have hne : c ≠ n := fun hEq => hnotin (hEq ▸ hmem)
              exact sibling_not_reach h rank Hrank Huniq e c n hcc
                (hsub n (List.mem_cons_of_mem c hmem)) hne
        obtain ⟨hg1, hg2, hg3⟩ := IHf f (by omega) c (v * getOwn h.query c) acc
          (fun p n => X p n ∨ (p = e ∧ n ∈ cs')) (by omega) hA hB hC
        have hnotce : ¬ Reach h c e := fun hr => by
          have := reach_rank_le h rank Hrank c e hr
          omega
        have hacc'e : dfsRec h f c (v * getOwn h.query c) acc e = some v := by
          rw [hg3 e hnotce]
          exact hacce
        obtain ⟨hi1, hi2, hi3⟩ := ih (fun x hx => hsub x (List.mem_cons_of_mem c hx)) hnd'
          (dfsRec h f c (v * getOwn h.query c) acc) hacc'e hg1
        rw [List.foldl_cons]
        refine ⟨hi1, hi2, ?_⟩
        intro x hx
        rw [hi3 x (fun d hd => hx d (List.mem_cons_of_mem c hd))]
        exact hg3 x (hx c (List.mem_cons_self c cs'))
    have hgex0 : Gex h (OMap.insert m e v)
        (fun p n => X p n ∨ (p = e ∧ n ∈ (h.children e).reverse)) := by
      intro p n vn vp hpn hnx hn hp
      by_cases hne : n = e
      · have hpne : p ≠ e := by
          intro hEq
          have h1 := Hrank p n hpn
          rw [hEq, hne] at h1
          omega
        rw [hne, OMap.insert_self] at hn
        have hvn : v = vn := Option.some.inj hn
        rw [OMap.insert_ne m e v p hpne] at hp
        have hres := ha p vp (hne ▸ hpn) hp
        rw [← hvn, hne]
        exact hres
      · by_cases hpe : p = e
        · exfalso
          apply hnx
          exact Or.inr ⟨hpe, List.mem_reverse.mpr (hpe ▸ hpn)⟩
        · rw [OMap.insert_ne m e v n hne] at hn
          rw [OMap.insert_ne m e v p hpe] at hp
          exact hb p n vn vp hpn
            (fun hor => hor.elim (fun hx => hnx (Or.inl hx)) hne) hn hp
    obtain ⟨g1, g2, g3⟩ := inner ((h.children e).reverse)
      (fun c hcm => List.mem_reverse.mp hcm)
      ((List.nodup_reverse).mpr (Hnodup e))
      (OMap.insert m e v) (OMap.insert_self m e v) hgex0
    refine ⟨g1, g2, ?_⟩
    intro x hrx
    have hx1 : ∀ c ∈ (h.children e).reverse, ¬ Reach h c x := by
      intro c hcm hr
      exact hrx (Reach.step e c x (List.mem_reverse.mp hcm) hr)
    rw [g3 x hx1]
    have hxe : x ≠ e := fun hEq => hrx (by rw [hEq]; exact Reach.refl e)
    exact OMap.insert_ne m e v x hxe

theorem calcRec_gex (h : Hierarchy) (rank : Nat → Nat)
    (Hrank : ∀ p c, c ∈ h.children p → rank c < rank p)
    (Huniq : ∀ p q c, c ∈ h.children p → c ∈ h.children q → p = q)
    (Hnodup : ∀ p, (h.children p).Nodup) :
    ∀ qs m, Closed h m → Gex h m (fun _ _ => False) →
      Closed h (calcRec h rank qs m) ∧ Gex h (calcRec h rank qs m) (fun _ _ => False) := by
  intro qs
  induction qs with
  | nil =>
    intro m hcl hg
    exact ⟨hcl, hg⟩
  | cons row rest ih =>
    obtain ⟨e, o⟩ := row
    intro m hcl hg
    by_cases hm : (m e).isSome = true
    · rw [calcRec, if_pos hm]
      exact ih m hcl hg
    · rw [calcRec, if_neg hm]
      have hA : ∀ p vp, e ∈ h.children p → m p = some vp →
          o.get = getOwn h.query e * vp := by
        intro p vp hep hp
        exfalso
        have hpd : (m p).isSome = true := by rw [hp]; rfl
        exact hm (hcl p hpd e hep)
      have hB : Gex h m (fun p n => False ∨ n = e) :=
        gex_mono h m (fun _ _ => False) _ (fun p n hF => hF.elim) hg
      have hC : ∀ p n, False → ¬ Reach h e p ∧ ¬ Reach h e n := fun p n hF => hF.elim
      obtain ⟨hg1, hg2, hg3⟩ := dfsRec_gex h rank Hrank Huniq Hnodup (rank e + 1) e o.get m
        (fun _ _ => False) (by omega) hA hB hC
      have hcl' : Closed h (dfsRec h (rank e + 1) e o.get m) := by
        intro p hp c hcm
        rw [dfsRec_dom h rank Hrank (rank e + 1) e o.get m (by omega)] at hp
        rw [dfsRec_dom h rank Hrank (rank e + 1) e o.get m (by omega)]
        rcases hp with hp | hp
        · exact Or.inl (hcl p hp c hcm)
        · exact Or.inr (reach_extend h e p c hp hcm)
      exact ih (dfsRec h (rank e + 1) e o.get m) hcl' hg1

/-- **C1.** On an acyclic forest hierarchy (child links admit a decreasing
rank, every node has at most one parent, children lists have no duplicates),
after a successful `calculate_opacity` run, every recorded node whose parent
is also recorded holds exactly its own opacity (its `Opacity`'s current, or
`1.0` if it carries none) times the parent's recorded effective opacity. -/
theorem calc_effective_parent_product (h : Hierarchy) (rank : Nat → Nat)
    (prior : OMap) (fuel : Nat) (m : OMap)
    (Hrank : ∀ p c, c ∈ h.children p → rank c < rank p)
    (Huniq : ∀ p q c, c ∈ h.children p → c ∈ h.children q → p = q)
    (Hnodup : ∀ p, (h.children p).Nodup)
    (hrun : calculate_opacity prior h fuel = some m) :
    ∀ p n vn vp, n ∈ h.children p → m n = some vn → m p = some vp →
      vn = getOwn h.query n * vp := by
  have heq : m = calcRec h rank h.query (OMap.clear prior) :=
    calcLoop_eq_calcRec h rank Hrank h.query fuel (OMap.clear prior) m hrun
  have hres := calcRec_gex h rank Hrank Huniq Hnodup h.query (OMap.clear prior)
    (fun p hp => absurd hp (by simp [OMap.clear]))
    (fun p n vn vp hpn _ hn hp => absurd hn (by simp [OMap.clear]))
  intro p n vn vp hpn hn hp
  rw [heq] at hn hp
  exact hres.2 p n vn vp hpn not_false hn hp

/-- Three-node chain: root 0 with own opacity `1/2`, child 1 with own opacity
`1/3`, grandchild 2 with no `Opacity` component. -/
def hierC1 : Hierarchy :=
  { query := [(0, Opacity.new (1/2)), (1, Opacity.new (1/3))]
    children := fun e => if e = 0 then [1] else if e = 1 then [2] else [] }

def rankC1 : Nat → Nat := fun e => if e = 0 then 2 else if e = 1 then 1 else 0

theorem childC1_cases : ∀ r c, c ∈ hierC1.children r → (r = 0 ∧ c = 1) ∨ (r = 1 ∧ c = 2) := by
  intro r c hr
  have hr' : c ∈ (if r = 0 then [1] else if r = 1 then [2] else ([] : List Nat)) := hr
  by_cases h0 : r = 0
  · rw [if_pos h0] at hr'
    exact Or.inl ⟨h0, by simpa using hr'⟩
  · rw [if_neg h0] at hr'
    by_cases h1 : r = 1
    · rw [if_pos h1] at hr'
      exact Or.inr ⟨h1, by simpa using hr'⟩
    · rw [if_neg h1] at hr'
      exact absurd hr' (by simp)

theorem rankC1_ok : ∀ p c, c ∈ hierC1.children p → rankC1 c < rankC1 p := by
  intro p c hc
  rcases childC1_cases p c hc with ⟨hp, hc1⟩ | ⟨hp, hc2⟩
  · rw [hp, hc1]
    norm_num [rankC1]
  · rw [hp, hc2]
    norm_num [rankC1]

theorem uniqC1 : ∀ p q c, c ∈ hierC1.children p → c ∈ hierC1.children q → p = q := by
  intro p q c hp hq
  rcases childC1_cases p c hp with ⟨hp0, hc1⟩ | ⟨hp1, hc2⟩ <;>
    rcases childC1_cases q c hq with ⟨hq0, hd1⟩ | ⟨hq1, hd2⟩
  · rw [hp0, hq0]
  · omega
  · omega
  · rw [hp1, hq1]

theorem nodupC1 : ∀ p, (hierC1.children p).Nodup := by
  intro p
  show (if p = 0 then [1] else if p = 1 then [2] else ([] : List Nat)).Nodup
  split_ifs <;> simp

/-- **C1 witness.** In `hierC1` the rebuild computes effective opacities
`1/2`, `1/6 = 1/2 * 1/3` and `1/6 = 1/6 * 1.0` for root, child and
grandchild, and the parent-product law instantiated at the pair (0, 1) gives
`1/6 = own(1) * 1/2`. -/
theorem calc_effective_parent_product_witness :
    (calculate_opacity OMap.empty hierC1 (rootsMeasure hierC1 rankC1)).map
        (fun m => (m 0, m 1, m 2)) = some (some (1/2), some (1/6), some (1/6)) ∧
    (1/6 : ℚ) = getOwn hierC1.query 1 * (1/2) := by
  have hvals : (calculate_opacity OMap.empty hierC1 (rootsMeasure hierC1 rankC1)).map
      (fun m => (m 0, m 1, m 2)) = some (some (1/2), some (1/6), some (1/6)) := by
    norm_num [calculate_opacity, calcLoop, dfsLoop, pushChildren, getOwn, OMap.insert,
      OMap.clear, OMap.empty, hierC1, rootsMeasure, rankC1, wt, Opacity.new, Opacity.get,
      List.find?, show ((0 : Nat) == 1) = false from rfl,
      show ((1 : Nat) == 1) = true from rfl, show ((0 : Nat) == 2) = false from rfl,
      show ((1 : Nat) == 2) = false from rfl]
  refine ⟨hvals, ?_⟩
  cases hEq : calculate_opacity OMap.empty hierC1 (rootsMeasure hierC1 rankC1) with
  | none =>
    rw [hEq] at hvals
    exact absurd hvals (by simp)
  | some m =>
    rw [hEq] at hvals
    simp only [Option.map_some'] at hvals
    have hparts := Option.some.inj hvals
    have h0 : m 0 = some (1/2) := congrArg (fun t => t.1) hparts
    have h1 : m 1 = some (1/6) := congrArg (fun t => t.2.1) hparts
    have hmem : (1 : Nat) ∈ hierC1.children 0 := by
      show (1 : Nat) ∈ (if (0 : Nat) = 0 then [1] else if (0 : Nat) = 1 then [2] else [])
      simp
    exact calc_effective_parent_product hierC1 rankC1 OMap.empty
      (rootsMeasure hierC1 rankC1) m rankC1_ok uniqC1 nodupC1 hEq 0 1 (1/6) (1/2) hmem h1 h0
